import Mathlib

/-!
Verification development for the stack-merge engine of the `flame` repository
(`src/process.rs`).  The Rust data model and operations are shallowly embedded:

* `Frame` embeds the Rust `Frame` enum (`CFrame` / `PyFrame`); the untyped
  JSON `locals` payload is carried as an uninterpreted string, since the merge
  never reads it.
* `TrieNode` embeds the Rust `TrieNode`.  The Rust field
  `children : HashMap<String, TrieNode>` is a finite map fixing no iteration
  order; it is embedded canonically as a key-sorted association list, so that
  association-list equality coincides with finite-map (contents) equality.
  The Rust field `ranks : BTreeSet<u32>` is a sorted deduplicated set; it is
  embedded canonically as a strictly ascending `List ℕ`.
* `insertTrie` embeds `StackTrie::insert`, `travList` embeds
  `StackTrie::traverse_with_all_stack` (it walks a children list in the order
  given, which lets the dependence on the unspecified `HashMap` iteration
  order be stated), `formatRankStr` / `innerFormatChars` embed
  `StackTrie::format_rank_str` and its nested `inner_format`, and
  `mergeResult` embeds `process_and_merge_callstacks` (file I/O abstracted:
  the `Except` value is the error, resp. the list of written lines).
-/

namespace Flame

/-- A frame of the Rust `Frame` enum: `CFrame {file, func, ip, lineno}` or
`PyFrame {file, func, lineno, locals}`.  `locals` is an arbitrary JSON
payload that the merge engine never reads; it is carried uninterpreted. -/
inductive Frame : Type where
  | cframe (file func ip : String) (lineno : ℕ)
  | pyframe (file func : String) (lineno : ℕ) (locals : String)
deriving DecidableEq

/-- One decimal digit character, `d ↦ '0' + d` (Rust `to_string` digits). -/
def decChar (d : ℕ) : Char := Char.ofNat (48 + d)

/-- Little-endian decimal digit characters of `m`, with explicit fuel
(`fuel ≥ m` suffices); structural recursion keeps it kernel-computable. -/
def digitsRevFuel : ℕ → ℕ → List Char
  | _, 0 => []
  | 0, _ => []
  | fuel + 1, m + 1 => decChar ((m + 1) % 10) :: digitsRevFuel fuel ((m + 1) / 10)

/-- Decimal rendering of a natural number as characters (Rust `to_string`). -/
def natToChars (n : ℕ) : List Char :=
  match n with
  | 0 => ['0']
  | m + 1 => (digitsRevFuel (m + 1) (m + 1)).reverse

/-- Decimal rendering of a natural number as a string. -/
def natToStr (n : ℕ) : String := String.mk (natToChars n)

/-- Canonical key of a frame, `format!("{} ({}:{})", func, file, lineno)` in
`process_and_merge_callstacks`; both variants map through the same format,
so `ip` and `locals` are discarded. -/
def frameKey : Frame → String
  | .cframe file func _ lineno => func ++ " (" ++ file ++ ":" ++ natToStr lineno ++ ")"
  | .pyframe file func lineno _ => func ++ " (" ++ file ++ ":" ++ natToStr lineno ++ ")"

/-- Does `needle` start `hay`?  (Helper for Rust `str::contains`.) -/
def leadsChars : List Char → List Char → Bool
  | [], _ => true
  | _ :: _, [] => false
  | a :: as, b :: bs => a = b && leadsChars as bs

/-- Does `needle` occur contiguously inside `hay`?  (Rust `str::contains`.) -/
def hasSubChars (needle : List Char) : List Char → Bool
  | [] => needle.isEmpty
  | c :: cs => leadsChars needle (c :: cs) || hasSubChars needle cs

/-- `frame.contains("lto_priv")` of `StackTrie::insert`. -/
def containsMarker (s : String) : Bool := hasSubChars "lto_priv".data s.data

/-- A node of the Rust `TrieNode`.  `children` canonically represents the
`HashMap<String, TrieNode>` as a key-sorted association list; `ranks`
canonically represents the `BTreeSet<u32>` as a strictly ascending list. -/
inductive TrieNode : Type where
  | mk (children : List (String × TrieNode)) (is_end_of_stack : Bool) (ranks : List ℕ)

/-- The `children` field. -/
def TrieNode.children : TrieNode → List (String × TrieNode)
  | .mk c _ _ => c

/-- The `is_end_of_stack` field. -/
def TrieNode.is_end_of_stack : TrieNode → Bool
  | .mk _ e _ => e

/-- The `ranks` field. -/
def TrieNode.ranks : TrieNode → List ℕ
  | .mk _ _ r => r

/-- `TrieNode::new()`. -/
def TrieNode.new : TrieNode := .mk [] false []

/-- Insertion into the sorted deduplicated rank list: `BTreeSet::insert`. -/
def insertRank (r : ℕ) : List ℕ → List ℕ
  | [] => [r]
  | x :: xs =>
    if r < x then r :: x :: xs
    else if r = x then x :: xs
    else x :: insertRank r xs

/-- `TrieNode::add_rank`. -/
def addRank (r : ℕ) (n : TrieNode) : TrieNode :=
  .mk n.children n.is_end_of_stack (insertRank r n.ranks)

/-- Lookup in the children association list (`HashMap` lookup). -/
def findChild (key : String) : List (String × TrieNode) → Option TrieNode
  | [] => none
  | (k, v) :: rest => if k = key then some v else findChild key rest

/-- Lexicographic character order on strings, used only to pick the one
canonical layout of the children association list (the Rust `HashMap` fixes
no order at all, so any total order gives a faithful canonical form). -/
def ltChars : List Char → List Char → Bool
  | _, [] => false
  | [], _ :: _ => true
  | a :: as, b :: bs => if a < b then true else if b < a then false else ltChars as bs

/-- `ltChars` lifted to strings. -/
def keyLt (a b : String) : Bool := ltChars a.data b.data

/-- Store `val` under `key` in the canonical (key-sorted) children list;
the contents change exactly as for a `HashMap` insert/overwrite. -/
def updateChild (key : String) (val : TrieNode) : List (String × TrieNode) →
    List (String × TrieNode)
  | [] => [(key, val)]
  | (k, v) :: rest =>
    if keyLt key k then (key, val) :: (k, v) :: rest
    else if key = k then (key, val) :: rest
    else (k, v) :: updateChild key val rest

/-- `children.entry(frame).or_insert_with(TrieNode::new)`: the existing
child under the key, or a fresh node. -/
def childOrNew (key : String) (l : List (String × TrieNode)) : TrieNode :=
  match findChild key l with
  | some c => c
  | none => TrieNode.new

/-- `StackTrie::insert`, as a function of the node it descends from: walk the
key sequence; a frame containing `"lto_priv"` stops the walk; each visited
child receives the rank; the node where the walk stops is marked
`is_end_of_stack` and receives the rank. -/
def insertTrie : List String → ℕ → TrieNode → TrieNode
  | [], rank, n => .mk n.children true (insertRank rank n.ranks)
  | frame :: rest, rank, n =>
    if containsMarker frame then .mk n.children true (insertRank rank n.ranks)
    else
      .mk (updateChild frame
          (insertTrie rest rank (addRank rank (childOrNew frame n.children)))
          n.children)
        n.is_end_of_stack n.ranks

/-- Maximal-run scan of `StackTrie::format_rank_str`'s inner loop: starting
from a current run `[start, stop]`, each next element extends the run when it
equals `stop + 1` and otherwise closes it and opens a new one. -/
def runsGo (start stop : ℕ) : List ℕ → List (ℕ × ℕ)
  | [] => [(start, stop)]
  | y :: ys =>
    if y = stop + 1 then runsGo start y ys else (start, stop) :: runsGo y y ys

/-- The maximal consecutive runs of a list (the Rust `while` loop). -/
def runs : List ℕ → List (ℕ × ℕ)
  | [] => []
  | x :: xs => runsGo x x xs

/-- Rendering of one run: a bare number for a length-1 run, `start-end`
otherwise ((`inner_format`'s `range_str`)). -/
def tokChars (p : ℕ × ℕ) : List Char :=
  if p.1 = p.2 then natToChars p.1 else natToChars p.1 ++ '-' :: natToChars p.2

/-- `Vec::join` at the character level. -/
def joinSep (sep : Char) : List (List Char) → List Char
  | [] => []
  | [t] => t
  | t :: t2 :: ts => t ++ sep :: joinSep sep (t2 :: ts)

/-- `inner_format` of `StackTrie::format_rank_str`: render the maximal runs
and join them with `/`; the empty list renders as the empty string. -/
def innerFormatChars (l : List ℕ) : List Char :=
  joinSep '/' ((runs l).map tokChars)

/-- `StackTrie::format_rank_str`: `format!("@{}|{}", present, leaked)` where
`leaked` is the ascending difference `all_ranks \ ranks`. -/
def formatRankStr (allRanks ranks : List ℕ) : String :=
  String.mk ('@' :: innerFormatChars ranks ++
    '|' :: innerFormatChars (allRanks.filter (fun x => ! ranks.contains x)))

/-- `StackTrie::traverse_with_all_stack`, walking a children list in the
order in which it is presented (the Rust code iterates `&node.children`, a
`HashMap`, whose iteration order is not specified; the dependence of the
output on that order can therefore be stated against this function).  The
`fuel` argument only bounds the recursion depth, making the function
structurally recursive: the loop over one node's children (the `foldr`)
costs nothing and only the descent into a child consumes one unit, so any
`fuel` at least the depth of the trie reproduces the Rust recursion exactly
(`travList_congr` below proves the output does not depend on which such
bound is passed, and `depthC_mergeTrieRoot_lt_mergeFuel` that the bound
passed by `mergeResult` suffices). -/
def travList (allRanks : List ℕ) : ℕ →
    List (String × TrieNode) → List String → List (List String × String)
  | 0, _, _ => []
  | fuel + 1, children, path =>
    children.foldr
      (fun pr acc =>
        (if pr.2.is_end_of_stack then
            [([String.intercalate ";" path, pr.1], formatRankStr allRanks pr.2.ranks)]
          else [])
          ++ travList allRanks fuel pr.2.children
              (path ++ [pr.1 ++ formatRankStr allRanks pr.2.ranks])
          ++ acc)
      []

/-- Depth of the subtree below a children list: the recursion depth that
`traverse_with_all_stack` needs.  Proof-level measure only (well-founded
recursion), never evaluated. -/
def depthC : List (String × TrieNode) → ℕ
  | [] => 0
  | (_, TrieNode.mk cc _ _) :: rest => max (1 + depthC cc) (depthC rest)
termination_by l => sizeOf l
decreasing_by all_goals (simp <;> omega)

/-- `BTreeSet::from` a vector: sorted deduplicated contents
(`StackTrie::new` collecting `all_ranks`). -/
def sortDedup (l : List ℕ) : List ℕ := l.foldl (fun acc r => insertRank r acc) []

/-- Rust `str::split(';')` at the character level. -/
def splitChar (sep : Char) : List Char → List (List Char)
  | [] => [[]]
  | c :: cs =>
    if c = sep then [] :: splitChar sep cs
    else
      match splitChar sep cs with
      | [] => [[c]]
      | t :: ts => (c :: t) :: ts

/-- Rust `str::split(';')` on strings. -/
def splitStr (sep : Char) (s : String) : List String :=
  (splitChar sep s.data).map String.mk

/-- The per-worker normalisation step of `process_and_merge_callstacks`:
reverse the leaf-first trace to root-first order and map every frame to its
canonical key. -/
def normalizeStack (tr : List Frame) : List String := tr.reverse.map frameKey

/-- The `prepare_stacks` loop of `process_and_merge_callstacks`: reverse each
trace, drop the traces that are empty, and join each remaining trace's
canonical keys with `;`. -/
def prepareStacks (frames : List (List Frame)) : List String :=
  ((frames.map List.reverse).filter (fun r => ! r.isEmpty)).map
    (fun r => String.intercalate ";" (r.map frameKey))

/-- The trie built by the insertion loop of `process_and_merge_callstacks`:
the `index`-th prepared stack is split on `;` and inserted with rank
`rank_list[index]` (the positional pairing realised by `List.zip`). -/
def mergeTrieRoot (frames : List (List Frame)) (rank_list : List ℕ) : TrieNode :=
  ((prepareStacks frames).zip rank_list).foldl
    (fun t p => insertTrie (splitStr ';' p.1) p.2 t) TrieNode.new

/-- Traversal fuel that dominates the size of the trie built by the merge:
one unit per key of every inserted stack, one per stack, and one to spare.
The recursion depth of `traverse_with_all_stack` is at most the number of
child entries of the trie, which insertion bounds by the number of inserted
keys, so this fuel never cuts the traversal short. -/
def mergeFuel (frames : List (List Frame)) : ℕ :=
  ((prepareStacks frames).map (fun s => (splitStr ';' s).length)).sum
    + (prepareStacks frames).length + 1

/-- `process_and_merge_callstacks` on already-decoded input: `Except.error`
is the early fatal return (raised before any trie insertion and before any
output-file creation); `Except.ok` carries the lines written to the output
file, each `format!("{} {} 1", path.join(";"), rank_str)`. -/
def mergeResult (frames : List (List Frame)) (rank_list : List ℕ) :
    Except String (List String) :=
  if (prepareStacks frames).length > rank_list.length then
    Except.error "Number of stacks exceeds number of ranks"
  else
    Except.ok ((travList (sortDedup rank_list) (mergeFuel frames)
        (mergeTrieRoot frames rank_list).children []).map
      (fun pr => String.intercalate ";" pr.1 ++ " " ++ pr.2 ++ " 1"))

instance : DecidableEq (Except String (List String)) := fun a b =>
  match a, b with
  | .ok x, .ok y =>
    if h : x = y then .isTrue (by rw [h]) else .isFalse (by simp [h])
  | .error x, .error y =>
    if h : x = y then .isTrue (by rw [h]) else .isFalse (by simp [h])
  | .ok _, .error _ => .isFalse (by simp)
  | .error _, .ok _ => .isFalse (by simp)

/-- Numeric value of a decimal digit character (inverse of `decChar`). -/
def digitVal (c : Char) : ℕ := c.toNat - 48

/-- Value of a little-endian decimal digit character list. -/
def parseLE : List Char → ℕ
  | [] => 0
  | c :: cs => digitVal c + 10 * parseLE cs

/-- Value of a big-endian decimal digit character list. -/
def charsToNat (cs : List Char) : ℕ := parseLE cs.reverse

/-- Parse one range token back into the run it denotes: a bare number means
a singleton, `start-end` means the inclusive run from `start` to `end`. -/
def parseTok (cs : List Char) : List ℕ :=
  match splitChar '-' cs with
  | [a] => [charsToNat a]
  | [a, b] => List.range' (charsToNat a) (charsToNat b + 1 - charsToNat a)
  | _ => []

/-- Decompression of the range-compressed rendering, the inverse whose
existence the spec's bijection property asserts (this definition follows
the spec's words for the rendering rule, read backwards: split the string
on `/`, parse each token as a bare number or a `start-end` run, and
concatenate the denoted runs; the empty string denotes the empty set). -/
def decompressChars (cs : List Char) : List ℕ :=
  if cs.isEmpty then [] else ((splitChar '/' cs).map parseTok).flatten

/-- `decompressChars` on a string. -/
def decompressRanks (s : String) : List ℕ := decompressChars s.data

/-- The range-compressed rendering of a finite set of worker ids: sort
ascending (the `BTreeSet` iteration order used by `format_rank_str`) and
apply the source's `inner_format`. -/
def rankSetRender (S : Finset ℕ) : String :=
  String.mk (innerFormatChars (S.sort (· ≤ ·)))

/-- A sequence of bare `StackTrie::insert` calls starting from a fresh root
(`TrieNode::new`), each given a key sequence and a rank. -/
def buildRoot (pairs : List (List String × ℕ)) : TrieNode :=
  pairs.foldl (fun t p => insertTrie p.1 p.2 t) TrieNode.new

/-- Every rank set in the subtree rooted at the node is contained in `U`. -/
inductive RanksBounded (U : List ℕ) : TrieNode → Prop where
  | mk (children : List (String × TrieNode)) (e : Bool) (ranks : List ℕ) :
      ranks ⊆ U → (∀ k c, (k, c) ∈ children → RanksBounded U c) →
      RanksBounded U (.mk children e ranks)

/-- Below this node, every child's rank set is a subset of its parent's
rank set, hereditarily. -/
inductive RankDescending : TrieNode → Prop where
  | mk (children : List (String × TrieNode)) (e : Bool) (ranks : List ℕ) :
      (∀ k c, (k, c) ∈ children → c.ranks ⊆ ranks) →
      (∀ k c, (k, c) ∈ children → RankDescending c) →
      RankDescending (.mk children e ranks)

/-! ### Helper lemmas -/

theorem self_mem_insertRank (r : ℕ) (l : List ℕ) : r ∈ insertRank r l := by
  induction l with
  | nil => simp [insertRank]
  | cons x xs ih =>
    by_cases h1 : r < x
    · simp [insertRank, h1]
    · by_cases h2 : r = x
      · simp [insertRank, h1, h2]
      · simp only [insertRank, if_neg h1, if_neg h2, List.mem_cons]
        exact Or.inr ih

theorem prepareStacks_cons (tr : List Frame) (rest : List (List Frame)) :
    prepareStacks (tr :: rest) =
      if tr.isEmpty then prepareStacks rest
      else String.intercalate ";" (tr.reverse.map frameKey) :: prepareStacks rest := by
  cases tr with
  | nil => simp [prepareStacks, List.filter_cons]
  | cons f fs => simp [prepareStacks, List.filter_cons]

theorem prepareStacks_filter_nonempty (frames : List (List Frame)) :
    prepareStacks (frames.filter (fun tr => ! tr.isEmpty)) = prepareStacks frames := by
  induction frames with
  | nil => rfl
  | cons tr rest ih =>
    rw [List.filter_cons]
    by_cases h : tr.isEmpty
    · simp [h, prepareStacks_cons, ih]
    · simp [h, prepareStacks_cons, ih]

theorem mergeResult_congr_prepare (f1 f2 : List (List Frame)) (rank_list : List ℕ)
    (h : prepareStacks f1 = prepareStacks f2) :
    mergeResult f1 rank_list = mergeResult f2 rank_list ∧
      mergeTrieRoot f1 rank_list = mergeTrieRoot f2 rank_list := by
  unfold mergeResult mergeFuel mergeTrieRoot
  rw [h]
  exact ⟨rfl, rfl⟩

theorem prepareStacks_of_all_nil (frames : List (List Frame))
    (h : ∀ tr ∈ frames, tr = []) : prepareStacks frames = [] := by
  induction frames with
  | nil => rfl
  | cons tr rest ih =>
    have htr : tr = [] := h tr (List.mem_cons_self _ _)
    subst htr
    simpa [prepareStacks, List.filter] using
      ih (fun tr htr => h tr (List.mem_cons_of_mem _ htr))

/-! ### Claim C1 -/

/-- C1 counterexample: for three workers `0,1,2` each reporting the single
frame `main (a.c:1)`, the merge does not emit the line claimed by the spec
(`main (a.c:1)@0-2| 1`): the terminal record is the two-element vector
`["", "main (a.c:1)"]` joined with `;`, so the real line starts with a
semicolon and separates the annotation with a space. -/
theorem c1_counterexample :
    mergeResult (List.replicate 3 [Frame.cframe "a.c" "main" "0x0" 1]) [0, 1, 2]
      ≠ Except.ok ["main (a.c:1)@0-2| 1"] := by decide

/-- C1 (amended): for three workers `0,1,2` each reporting the single frame
`main (a.c:1)`, the merge emits exactly one line, `;main (a.c:1) @0-2| 1`:
the record is the pair (parent path string, terminal key) joined by `;` —
with a leading semicolon because the parent path of a depth-1 node is the
empty string — then a space, the terminal node's annotation `@0-2|`, a
space, and the literal weight `1`. -/
theorem c1_scenario_a_output :
    mergeResult (List.replicate 3 [Frame.cframe "a.c" "main" "0x0" 1]) [0, 1, 2]
      = Except.ok [";main (a.c:1) @0-2| 1"] := by decide

/-! ### Claim C2 -/

/-- C2: the traversal output is not a function of the children map contents:
two presentations of the same two-entry children map (same key/subtree
associations, permuted list order) yield different output sequences.  The
Rust code iterates a `std::collections::HashMap` whose iteration order is
randomized per process, so the claimed run-to-run determinism fails;
stability would require an ordered map, as the spec itself demands. -/
theorem c2_traversal_depends_on_child_order :
    List.Perm
        [("a (a.c:1)", TrieNode.mk [] true [0]), ("b (b.c:1)", TrieNode.mk [] true [1])]
        [("b (b.c:1)", TrieNode.mk [] true [1]), ("a (a.c:1)", TrieNode.mk [] true [0])] ∧
      travList [0, 1] 5
          [("a (a.c:1)", TrieNode.mk [] true [0]), ("b (b.c:1)", TrieNode.mk [] true [1])] [] ≠
        travList [0, 1] 5
          [("b (b.c:1)", TrieNode.mk [] true [1]), ("a (a.c:1)", TrieNode.mk [] true [0])] [] :=
  ⟨List.Perm.swap _ _ _, by decide⟩

/-! ### Claim C3 -/

/-- C3 counterexample: with worker 0 reporting an empty stack and worker 1
reporting one frame, the root is not marked `is_end_of_stack` and worker 0's
id is not recorded in the root's rank set — the empty stack is silently
dropped by the `if !rank.is_empty()` filter; moreover the single output line
pairs the surviving stack with id 0 (shifted), not with its own id 1. -/
theorem c3_counterexample :
    ¬ ((mergeTrieRoot [[], [Frame.cframe "x.c" "f" "0x0" 1]] [0, 1]).is_end_of_stack = true ∧
        0 ∈ (mergeTrieRoot [[], [Frame.cframe "x.c" "f" "0x0" 1]] [0, 1]).ranks) ∧
      mergeResult [[], [Frame.cframe "x.c" "f" "0x0" 1]] [0, 1]
        = Except.ok [";f (x.c:1) @0|1 1"] := by
  constructor
  · decide
  · decide

/-- C3 (amended): a worker's empty stack is dropped before pairing and
insertion — the merge (result and trie alike) behaves exactly as if the
batch had not contained the empty stacks at all, so the root is not marked,
the worker's id is recorded nowhere, no output record is produced for it,
and each later stack pairs with the id at its shifted (filtered) position. -/
theorem c3_empty_stack_dropped (frames : List (List Frame)) (rank_list : List ℕ) :
    mergeResult (frames.filter (fun tr => ! tr.isEmpty)) rank_list
        = mergeResult frames rank_list ∧
      mergeTrieRoot (frames.filter (fun tr => ! tr.isEmpty)) rank_list
        = mergeTrieRoot frames rank_list :=
  mergeResult_congr_prepare _ _ _ (prepareStacks_filter_nonempty frames)

/-! ### Claim C4 -/

/-- C4 counterexample: invoked with zero stacks and zero declared worker
ids, the merge does not fail: no empty-input check exists, the cardinality
test `0 > 0` passes, and the code goes on to create the output directory
and file and returns success with an empty line list. -/
theorem c4_counterexample : mergeResult [] [] = Except.ok [] := by decide

/-- C4 (amended): there is no empty-input error: with zero usable stacks
(no stacks at all, or only empty ones) and any declared id list, the merge
succeeds, performs its output file I/O, and writes an empty output; the
only pre-I/O failure in the code is the cardinality check. -/
theorem c4_no_empty_input_error (frames : List (List Frame)) (rank_list : List ℕ)
    (h : ∀ tr ∈ frames, tr = []) : mergeResult frames rank_list = Except.ok [] := by
  have hp : prepareStacks frames = [] := prepareStacks_of_all_nil frames h
  unfold mergeResult mergeFuel mergeTrieRoot
  rw [hp]
  simp [travList, TrieNode.new, TrieNode.children]

/-- C4 witness: the concrete batch `[[]]` with no declared ids satisfies the
hypothesis and the merge returns success with no output lines. -/
theorem c4_witness :
    (∀ tr ∈ ([[]] : List (List Frame)), tr = []) ∧
      mergeResult [[]] [] = Except.ok [] :=
  ⟨by decide, c4_no_empty_input_error [[]] [] (by decide)⟩

/-! ### Claim C5 -/

/-- C5 counterexample: a batch of four supplied stacks, one of them empty,
against three declared ids does not fail — the empty stack is filtered out
before the cardinality check, so only non-empty stacks are counted and the
merge succeeds. -/
theorem c5_counterexample :
    mergeResult
        [[Frame.cframe "x.c" "g" "0x0" 2], [Frame.cframe "x.c" "g" "0x0" 2],
          [Frame.cframe "x.c" "g" "0x0" 2], []] [0, 1, 2]
      = Except.ok [";g (x.c:2) @0-2| 1"] := by decide

/-- C5 (amended): if the number of non-empty stacks exceeds the number of
declared worker ids, the merge fails with the cardinality error, returned
before any trie insertion and before any output file is created (the
`Except.error` early return precedes the insertion fold and the write in
`mergeResult`, mirroring the order of operations in the code). -/
theorem c5_cardinality_error (frames : List (List Frame)) (rank_list : List ℕ)
    (h : (prepareStacks frames).length > rank_list.length) :
    mergeResult frames rank_list
      = Except.error "Number of stacks exceeds number of ranks" := by
  unfold mergeResult
  rw [if_pos h]

/-- C5 witness: two non-empty stacks against one declared id trip the
cardinality error. -/
theorem c5_witness :
    (prepareStacks [[Frame.cframe "x.c" "g" "0x0" 2], [Frame.cframe "x.c" "g" "0x0" 2]]).length
        > ([0] : List ℕ).length ∧
      mergeResult [[Frame.cframe "x.c" "g" "0x0" 2], [Frame.cframe "x.c" "g" "0x0" 2]] [0]
        = Except.error "Number of stacks exceeds number of ranks" :=
  ⟨by decide, c5_cardinality_error _ _ (by decide)⟩

/-! ### Claim C9 -/

/-- C9: the normalizer reverses the leaf-first trace to root-first order and
maps each frame to `"<function> (<file>:<line>)"` uniformly: a C frame's key
is that format (independent of `ip`), and a Python frame with the same
`function`/`file`/`line` gets the identical key whatever its `locals` are. -/
theorem c9_normalizer (trace : List Frame) (file func ip : String) (lineno : ℕ)
    (locals : String) :
    normalizeStack trace = (trace.map frameKey).reverse ∧
      frameKey (Frame.cframe file func ip lineno)
        = func ++ " (" ++ file ++ ":" ++ natToStr lineno ++ ")" ∧
      frameKey (Frame.pyframe file func lineno locals)
        = frameKey (Frame.cframe file func ip lineno) :=
  ⟨List.map_reverse frameKey trace, rfl, rfl⟩

/-! ### Claim C10 -/

/-- C10: an insert whose walk stops at the root — an empty key sequence, or
a first key containing `"lto_priv"` (truncating every frame) — marks the
root as a stack end and adds the worker's rank to the root's rank set, but
leaves the children untouched; and since the traversal only ever emits
records for children, the traversal output is completely unchanged: no
output line is produced for the root's terminal record. -/
theorem c10_root_terminal_silent (n : TrieNode) (ks : List String) (r : ℕ)
    (allR : List ℕ) (fuel : ℕ) (path : List String)
    (h : ks = [] ∨ ∃ k ks', ks = k :: ks' ∧ containsMarker k = true) :
    (insertTrie ks r n).is_end_of_stack = true ∧
      r ∈ (insertTrie ks r n).ranks ∧
      (insertTrie ks r n).children = n.children ∧
      travList allR fuel (insertTrie ks r n).children path
        = travList allR fuel n.children path := by
  have hshape : insertTrie ks r n = .mk n.children true (insertRank r n.ranks) := by
    rcases h with h | ⟨k, ks', hk, hm⟩
    · rw [h]; rfl
    · rw [hk]; simp [insertTrie, hm]
  rw [hshape]
  exact ⟨rfl, self_mem_insertRank r n.ranks, rfl, rfl⟩

/-- C10 witness: inserting the single key `foo.lto_priv.0 (a.c:1)` into a
fresh root marks the root, records rank 0 there, and leaves the (empty)
traversal output unchanged. -/
theorem c10_witness :
    ((["foo.lto_priv.0 (a.c:1)"] : List String) = [] ∨
        ∃ k ks', (["foo.lto_priv.0 (a.c:1)"] : List String) = k :: ks' ∧
          containsMarker k = true) ∧
      ((insertTrie ["foo.lto_priv.0 (a.c:1)"] 0 TrieNode.new).is_end_of_stack = true ∧
        0 ∈ (insertTrie ["foo.lto_priv.0 (a.c:1)"] 0 TrieNode.new).ranks ∧
        (insertTrie ["foo.lto_priv.0 (a.c:1)"] 0 TrieNode.new).children
          = TrieNode.new.children ∧
        travList [0] 3 (insertTrie ["foo.lto_priv.0 (a.c:1)"] 0 TrieNode.new).children []
          = travList [0] 3 TrieNode.new.children []) :=
  ⟨Or.inr ⟨_, _, rfl, by decide⟩,
    c10_root_terminal_silent TrieNode.new _ 0 [0] 3 []
      (Or.inr ⟨_, _, rfl, by decide⟩)⟩

/-! ### Claim C6 -/

@[simp] theorem children_mk (c : List (String × TrieNode)) (e : Bool) (r : List ℕ) :
    (TrieNode.mk c e r).children = c := rfl

@[simp] theorem is_end_of_stack_mk (c : List (String × TrieNode)) (e : Bool)
    (r : List ℕ) : (TrieNode.mk c e r).is_end_of_stack = e := rfl

@[simp] theorem ranks_mk (c : List (String × TrieNode)) (e : Bool) (r : List ℕ) :
    (TrieNode.mk c e r).ranks = r := rfl

@[simp] theorem addRank_children (r : ℕ) (n : TrieNode) :
    (addRank r n).children = n.children := rfl

@[simp] theorem addRank_is_end_of_stack (r : ℕ) (n : TrieNode) :
    (addRank r n).is_end_of_stack = n.is_end_of_stack := rfl

@[simp] theorem addRank_ranks (r : ℕ) (n : TrieNode) :
    (addRank r n).ranks = insertRank r n.ranks := rfl

theorem mem_insertRank (a r : ℕ) (l : List ℕ) :
    a ∈ insertRank r l ↔ a = r ∨ a ∈ l := by
  induction l with
  | nil => simp [insertRank]
  | cons x xs ih =>
    by_cases h1 : r < x
    · simp [insertRank, h1]
    · by_cases h2 : r = x
      · subst h2
        have hrw : insertRank r (r :: xs) = r :: xs := by
          simp [insertRank, h1]
        rw [hrw, List.mem_cons]
        tauto
      · simp only [insertRank, if_neg h1, if_neg h2, List.mem_cons, ih]
        tauto

theorem insertRank_subset {U l : List ℕ} {r : ℕ} (hl : l ⊆ U) (hr : r ∈ U) :
    insertRank r l ⊆ U := by
  intro a ha
  rcases (mem_insertRank a r l).1 ha with h | h
  · exact h ▸ hr
  · exact hl h

theorem subset_insertRank (r : ℕ) (l : List ℕ) : l ⊆ insertRank r l :=
  fun _ ha => (mem_insertRank _ r l).2 (Or.inr ha)

theorem insertRank_mono {l₁ l₂ : List ℕ} (r : ℕ) (h : l₁ ⊆ l₂) :
    insertRank r l₁ ⊆ insertRank r l₂ := by
  intro a ha
  rcases (mem_insertRank a r l₁).1 ha with h1 | h1
  · exact (mem_insertRank a r l₂).2 (Or.inl h1)
  · exact (mem_insertRank a r l₂).2 (Or.inr (h h1))

theorem insertRank_idem (r : ℕ) (l : List ℕ) :
    insertRank r (insertRank r l) = insertRank r l := by
  induction l with
  | nil => simp [insertRank]
  | cons x xs ih =>
    by_cases h1 : r < x
    · simp [insertRank, h1, lt_irrefl]
    · by_cases h2 : r = x
      · simp [insertRank, h1, h2]
      · simp [insertRank, h1, h2, ih]

theorem mem_updateChild {k key : String} {c val : TrieNode}
    {l : List (String × TrieNode)} (h : (k, c) ∈ updateChild key val l) :
    (k = key ∧ c = val) ∨ (k, c) ∈ l := by
  induction l with
  | nil =>
    simp only [updateChild, List.mem_singleton, Prod.mk.injEq] at h
    exact Or.inl h
  | cons kv rest ih =>
    obtain ⟨k0, v0⟩ := kv
    by_cases h1 : keyLt key k0
    · simp only [updateChild, if_pos h1] at h
      rcases List.mem_cons.1 h with h2 | h2
      · exact Or.inl (by simpa using h2)
      · exact Or.inr h2
    · by_cases h2 : key = k0
      · simp only [updateChild, if_neg h1, if_pos h2] at h
        rcases List.mem_cons.1 h with h3 | h3
        · exact Or.inl (by simpa using h3)
        · exact Or.inr (List.mem_cons_of_mem _ h3)
      · simp only [updateChild, if_neg h1, if_neg h2] at h
        rcases List.mem_cons.1 h with h3 | h3
        · exact Or.inr (h3 ▸ List.mem_cons_self _ _)
        · rcases ih h3 with h4 | h4
          · exact Or.inl h4
          · exact Or.inr (List.mem_cons_of_mem _ h4)

theorem findChild_mem {key : String} {c : TrieNode} :
    ∀ {l : List (String × TrieNode)}, findChild key l = some c → (key, c) ∈ l := by
  intro l
  induction l with
  | nil => intro h; simp [findChild] at h
  | cons kv rest ih =>
    obtain ⟨k0, v0⟩ := kv
    intro h
    by_cases h1 : k0 = key
    · subst h1
      simp only [findChild, if_pos rfl] at h
      have hv := Option.some.inj h
      subst hv
      exact List.mem_cons_self _ _
    · simp only [findChild, if_neg h1] at h
      exact List.mem_cons_of_mem _ (ih h)

theorem childOrNew_cases (key : String) (l : List (String × TrieNode)) :
    childOrNew key l = TrieNode.new ∨ (key, childOrNew key l) ∈ l := by
  unfold childOrNew
  cases hf : findChild key l with
  | none => exact Or.inl rfl
  | some c => exact Or.inr (findChild_mem hf)

theorem bounded_new (U : List ℕ) : RanksBounded U TrieNode.new :=
  RanksBounded.mk [] false [] (List.nil_subset U)
    (fun _ c hc => absurd hc (List.not_mem_nil _))

theorem desc_new : RankDescending TrieNode.new :=
  RankDescending.mk [] false [] (fun _ c hc => absurd hc (List.not_mem_nil _))
    (fun _ c hc => absurd hc (List.not_mem_nil _))

theorem bounded_addRank {U : List ℕ} {n : TrieNode} {r : ℕ} (hr : r ∈ U)
    (h : RanksBounded U n) : RanksBounded U (addRank r n) := by
  cases h with
  | mk children e ranks hsub hch =>
    exact RanksBounded.mk _ _ _ (insertRank_subset hsub hr) hch

theorem bounded_insertTrie (ks : List String) {U : List ℕ} (r : ℕ)
    (hr : r ∈ U) : ∀ {n : TrieNode}, RanksBounded U n →
    RanksBounded U (insertTrie ks r n) := by
  induction ks with
  | nil =>
    intro n h
    cases h with
    | mk children e ranks hsub hch =>
      exact RanksBounded.mk _ _ _ (insertRank_subset hsub hr) hch
  | cons k rest ih =>
    intro n h
    cases h with
    | mk children e ranks hsub hch =>
      cases hm : containsMarker k with
      | true =>
        simp only [insertTrie, hm, if_true, children_mk, ranks_mk]
        exact RanksBounded.mk _ _ _ (insertRank_subset hsub hr) hch
      | false =>
        simp only [insertTrie, hm, Bool.false_eq_true, if_false, children_mk,
          is_end_of_stack_mk, ranks_mk]
        refine RanksBounded.mk _ _ _ hsub (fun k' c' hmem => ?_)
        rcases mem_updateChild hmem with ⟨hk, hc⟩ | hold
        · subst hc
          refine ih (bounded_addRank hr ?_)
          rcases childOrNew_cases k children with hnew | hmem2
          · rw [hnew]; exact bounded_new U
          · exact hch _ _ hmem2
        · exact hch _ _ hold

theorem insertTrie_addRank_ranks (ks : List String) (r : ℕ) (c : TrieNode) :
    (insertTrie ks r (addRank r c)).ranks = insertRank r c.ranks := by
  cases ks with
  | nil => simp [insertTrie, addRank, insertRank_idem]
  | cons k rest =>
    cases hm : containsMarker k with
    | true => simp [insertTrie, hm, addRank, insertRank_idem]
    | false => simp [insertTrie, hm, addRank]

theorem desc_insertTrie_addRank : ∀ (ks : List String) (r : ℕ) (c : TrieNode),
    RankDescending c → RankDescending (insertTrie ks r (addRank r c)) := by
  intro ks
  induction ks with
  | nil =>
    intro r c h
    cases h with
    | mk children e ranks hchs hchd =>
      exact RankDescending.mk _ _ _
        (fun k' c' hmem =>
          ((hchs k' c' hmem).trans (subset_insertRank r ranks)).trans
            (subset_insertRank r (insertRank r ranks)))
        hchd
  | cons k rest ih =>
    intro r c h
    cases h with
    | mk children e ranks hchs hchd =>
      cases hm : containsMarker k with
      | true =>
        simp only [insertTrie, addRank, hm, if_true, children_mk, ranks_mk]
        exact RankDescending.mk _ _ _
          (fun k' c' hmem =>
            ((hchs k' c' hmem).trans (subset_insertRank r ranks)).trans
              (subset_insertRank r (insertRank r ranks)))
          hchd
      | false =>
        simp only [insertTrie, hm, Bool.false_eq_true, if_false, addRank_children,
          addRank_is_end_of_stack, addRank_ranks, children_mk, is_end_of_stack_mk,
          ranks_mk]
        refine RankDescending.mk _ _ _ (fun k' c' hmem => ?_) (fun k' c' hmem => ?_)
        · rcases mem_updateChild hmem with ⟨hk, hc⟩ | hold
          · subst hc
            rw [insertTrie_addRank_ranks]
            refine insertRank_mono r ?_
            rcases childOrNew_cases k children with hnew | hmem2
            · rw [hnew]; exact List.nil_subset _
            · exact hchs _ _ hmem2
          · exact (hchs _ _ hold).trans (subset_insertRank r ranks)
        · rcases mem_updateChild hmem with ⟨hk, hc⟩ | hold
          · subst hc
            refine ih r _ ?_
            rcases childOrNew_cases k children with hnew | hmem2
            · rw [hnew]; exact desc_new
            · exact hchd _ _ hmem2
          · exact hchd _ _ hold

theorem childrenDesc_insertTrie (ks : List String) (r : ℕ) (n : TrieNode)
    (h : ∀ k c, (k, c) ∈ n.children → RankDescending c) :
    ∀ k c, (k, c) ∈ (insertTrie ks r n).children → RankDescending c := by
  cases ks with
  | nil => simpa [insertTrie] using h
  | cons k0 rest =>
    cases hm : containsMarker k0 with
    | true => simpa [insertTrie, hm] using h
    | false =>
      intro k c hmem
      simp only [insertTrie, hm, Bool.false_eq_true, if_false, children_mk] at hmem
      rcases mem_updateChild hmem with ⟨hk, hc⟩ | hold
      · subst hc
        apply desc_insertTrie_addRank
        rcases childOrNew_cases k0 n.children with hnew | hmem2
        · rw [hnew]; exact desc_new
        · exact h _ _ hmem2
      · exact h _ _ hold

theorem buildRoot_invariants (U : List ℕ) :
    ∀ (pairs : List (List String × ℕ)) (t : TrieNode),
      (∀ p ∈ pairs, p.2 ∈ U) → RanksBounded U t →
      (∀ k c, (k, c) ∈ t.children → RankDescending c) →
      RanksBounded U (pairs.foldl (fun t p => insertTrie p.1 p.2 t) t) ∧
        ∀ k c, (k, c) ∈ (pairs.foldl (fun t p => insertTrie p.1 p.2 t) t).children →
          RankDescending c := by
  intro pairs
  induction pairs with
  | nil => intro t _ hb hd; exact ⟨hb, hd⟩
  | cons p ps ih =>
    intro t hmem hb hd
    simp only [List.foldl_cons]
    exact ih _ (fun q hq => hmem q (List.mem_cons_of_mem _ hq))
      (bounded_insertTrie _ _ (hmem p (List.mem_cons_self _ _)) hb)
      (childrenDesc_insertTrie _ _ _ hd)

/-- C6 counterexample: one insert of a single ordinary key with rank 0 gives
a root whose rank set is empty (the descent never adds ranks to the root)
while its child's rank set is `[0]`, so the child-subset invariant fails at
the root: the claimed conjunction is false for this insert sequence. -/
theorem c6_counterexample :
    ¬ (RanksBounded [0] (buildRoot [(["k (a.c:1)"], 0)]) ∧
        RankDescending (buildRoot [(["k (a.c:1)"], 0)])) := by
  rintro ⟨-, hdesc⟩
  have hval : buildRoot [(["k (a.c:1)"], 0)]
      = TrieNode.mk [("k (a.c:1)", TrieNode.mk [] true [0])] false [] := rfl
  rw [hval] at hdesc
  cases hdesc with
  | mk children e ranks hchs hchd =>
    have h0 := hchs "k (a.c:1)" (TrieNode.mk [] true [0]) (List.mem_cons_self _ _)
    exact absurd (h0 (by decide)) (List.not_mem_nil 0)

/-- C6 (amended): after any sequence of insert operations whose ranks come
from the universe, every node's rank set is contained in the universe, and
the subset invariant `ranks(C) ⊆ ranks(N)` holds hereditarily below every
child of the root — but not between the root and its children: the root's
own rank set only collects ranks of stacks that terminate at the root. -/
theorem c6_rank_invariants (U : List ℕ) (pairs : List (List String × ℕ))
    (h : ∀ p ∈ pairs, p.2 ∈ U) :
    RanksBounded U (buildRoot pairs) ∧
      ∀ k c, (k, c) ∈ (buildRoot pairs).children → RankDescending c :=
  buildRoot_invariants U pairs TrieNode.new h (bounded_new U)
    (fun _ c hc => absurd hc (List.not_mem_nil _))

/-- C6 witness: the invariants at a one-insert instance with universe
`[0, 1]`. -/
theorem c6_witness :
    (∀ p ∈ ([(["k (a.c:1)"], 0)] : List (List String × ℕ)), p.2 ∈ ([0, 1] : List ℕ)) ∧
      (RanksBounded [0, 1] (buildRoot [(["k (a.c:1)"], 0)]) ∧
        ∀ k c, (k, c) ∈ (buildRoot [(["k (a.c:1)"], 0)]).children → RankDescending c) :=
  ⟨by decide, c6_rank_invariants [0, 1] _ (by decide)⟩

/-! ### Claim C7 -/

theorem digitVal_decChar : ∀ d < 10, digitVal (decChar d) = d := by decide

theorem decChar_ne_seps : ∀ d < 10, decChar d ≠ '-' ∧ decChar d ≠ '/' := by decide

theorem mem_digitsRevFuel : ∀ (fuel m : ℕ) (c : Char), c ∈ digitsRevFuel fuel m →
    ∃ d < 10, c = decChar d := by
  intro fuel
  induction fuel with
  | zero => intro m c hc; cases m <;> simp [digitsRevFuel] at hc
  | succ f ih =>
    intro m c hc
    cases m with
    | zero => simp [digitsRevFuel] at hc
    | succ m0 =>
      simp only [digitsRevFuel, List.mem_cons] at hc
      rcases hc with h | h
      · exact ⟨(m0 + 1) % 10, Nat.mod_lt _ (by omega), h⟩
      · exact ih _ _ h

theorem mem_natToChars (n : ℕ) (c : Char) (hc : c ∈ natToChars n) :
    ∃ d < 10, c = decChar d := by
  cases n with
  | zero =>
    simp only [natToChars, List.mem_singleton] at hc
    exact ⟨0, by omega, by rw [hc]; rfl⟩
  | succ m =>
    simp only [natToChars, List.mem_reverse] at hc
    exact mem_digitsRevFuel _ _ _ hc

theorem natToChars_ne_seps (n : ℕ) : ∀ c ∈ natToChars n, c ≠ '-' ∧ c ≠ '/' := by
  intro c hc
  obtain ⟨d, hd, rfl⟩ := mem_natToChars n c hc
  exact decChar_ne_seps d hd

theorem parseLE_digitsRevFuel : ∀ (fuel m : ℕ), m ≤ fuel →
    parseLE (digitsRevFuel fuel m) = m := by
  intro fuel
  induction fuel with
  | zero =>
    intro m hm
    interval_cases m
    rfl
  | succ f ih =>
    intro m hm
    cases m with
    | zero => rfl
    | succ m0 =>
      have hdiv : (m0 + 1) / 10 ≤ f := by
        have := Nat.div_lt_self (Nat.succ_pos m0) (by omega : 1 < 10)
        omega
      simp only [digitsRevFuel, parseLE, ih _ hdiv,
        digitVal_decChar ((m0 + 1) % 10) (Nat.mod_lt _ (by omega))]
      omega

theorem charsToNat_natToChars (n : ℕ) : charsToNat (natToChars n) = n := by
  cases n with
  | zero => rfl
  | succ m =>
    unfold charsToNat natToChars
    rw [List.reverse_reverse]
    exact parseLE_digitsRevFuel (m + 1) (m + 1) le_rfl

theorem natToChars_ne_nil (n : ℕ) : natToChars n ≠ [] := by
  cases n with
  | zero => simp [natToChars]
  | succ m => simp [natToChars, digitsRevFuel]

theorem splitChar_of_not_mem {sep : Char} :
    ∀ {cs : List Char}, (∀ c ∈ cs, c ≠ sep) → splitChar sep cs = [cs] := by
  intro cs
  induction cs with
  | nil => intro _; rfl
  | cons c cs ih =>
    intro h
    have hc : c ≠ sep := h c (List.mem_cons_self _ _)
    simp only [splitChar, if_neg hc]
    rw [ih (fun x hx => h x (List.mem_cons_of_mem _ hx))]

theorem splitChar_append {sep : Char} :
    ∀ {a : List Char} (b : List Char), (∀ c ∈ a, c ≠ sep) →
      splitChar sep (a ++ sep :: b) = a :: splitChar sep b := by
  intro a
  induction a with
  | nil => intro b _; simp [splitChar]
  | cons c cs ih =>
    intro b h
    have hc : c ≠ sep := h c (List.mem_cons_self _ _)
    simp only [List.cons_append, splitChar, if_neg hc, List.append_eq]
    rw [ih b (fun x hx => h x (List.mem_cons_of_mem _ hx))]

theorem splitChar_joinSep {sep : Char} :
    ∀ (ts : List (List Char)), ts ≠ [] → (∀ t ∈ ts, ∀ c ∈ t, c ≠ sep) →
      splitChar sep (joinSep sep ts) = ts := by
  intro ts
  induction ts with
  | nil => intro h _; exact absurd rfl h
  | cons t ts ih =>
    intro _ h
    cases ts with
    | nil => exact splitChar_of_not_mem (h t (List.mem_cons_self _ _))
    | cons t2 ts2 =>
      rw [show joinSep sep (t :: t2 :: ts2) = t ++ sep :: joinSep sep (t2 :: ts2) from rfl]
      rw [splitChar_append _ (h t (List.mem_cons_self _ _))]
      rw [ih (by simp) (fun u hu c hc => h u (List.mem_cons_of_mem _ hu) c hc)]

theorem range'_snoc (s n : ℕ) :
    List.range' s (n + 1) = List.range' s n ++ [s + n] := by
  simpa using @List.range'_concat 1 s n

theorem parseTok_tokChars {s e : ℕ} (h : s ≤ e) :
    parseTok (tokChars (s, e)) = List.range' s (e + 1 - s) := by
  by_cases hse : s = e
  · subst hse
    have htok : tokChars (s, s) = natToChars s := by simp [tokChars]
    rw [htok]
    unfold parseTok
    rw [splitChar_of_not_mem (fun c hc => (natToChars_ne_seps s c hc).1)]
    show [charsToNat (natToChars s)] = List.range' s (s + 1 - s)
    rw [charsToNat_natToChars]
    rw [show s + 1 - s = 1 from by omega, List.range'_one]
  · have htok : tokChars (s, e) = natToChars s ++ '-' :: natToChars e := by
      simp [tokChars, hse]
    rw [htok]
    unfold parseTok
    rw [splitChar_append _ (fun c hc => (natToChars_ne_seps s c hc).1)]
    rw [splitChar_of_not_mem (fun c hc => (natToChars_ne_seps e c hc).1)]
    show List.range' (charsToNat (natToChars s))
        (charsToNat (natToChars e) + 1 - charsToNat (natToChars s))
      = List.range' s (e + 1 - s)
    rw [charsToNat_natToChars, charsToNat_natToChars]

theorem parseTok_tokChars_pair (p : ℕ × ℕ) (h : p.1 ≤ p.2) :
    parseTok (tokChars p) = List.range' p.1 (p.2 + 1 - p.1) := by
  obtain ⟨s, e⟩ := p
  exact parseTok_tokChars h

theorem runsGo_ne_nil : ∀ (l : List ℕ) (s f : ℕ), runsGo s f l ≠ [] := by
  intro l
  induction l with
  | nil => intro s f; simp [runsGo]
  | cons y ys ih =>
    intro s f
    by_cases hy : y = f + 1
    · simp only [runsGo, if_pos hy]; exact ih s y
    · simp [runsGo, if_neg hy]

theorem runsGo_bounds : ∀ (l : List ℕ) (s f : ℕ), s ≤ f →
    ∀ p ∈ runsGo s f l, p.1 ≤ p.2 := by
  intro l
  induction l with
  | nil =>
    intro s f hsf p hp
    simp only [runsGo, List.mem_singleton] at hp
    rw [hp]
    exact hsf
  | cons y ys ih =>
    intro s f hsf p hp
    by_cases hy : y = f + 1
    · simp only [runsGo, if_pos hy] at hp
      exact ih s y (by omega) p hp
    · simp only [runsGo, if_neg hy, List.mem_cons] at hp
      rcases hp with hp | hp
      · rw [hp]; exact hsf
      · exact ih y y le_rfl p hp

theorem runsGo_flatten : ∀ (l : List ℕ) (s f : ℕ), s ≤ f →
    ((runsGo s f l).map (fun p => List.range' p.1 (p.2 + 1 - p.1))).flatten
      = List.range' s (f + 1 - s) ++ l := by
  intro l
  induction l with
  | nil => intro s f _; simp [runsGo]
  | cons y ys ih =>
    intro s f hsf
    by_cases hy : y = f + 1
    · subst hy
      rw [show runsGo s f ((f + 1) :: ys) = runsGo s (f + 1) ys from by
        simp [runsGo]]
      rw [ih s (f + 1) (by omega)]
      rw [show f + 1 + 1 - s = (f + 1 - s) + 1 from by omega, range'_snoc]
      rw [show s + (f + 1 - s) = f + 1 from by omega]
      simp
    · simp only [runsGo, if_neg hy, List.map_cons, List.flatten_cons]
      rw [ih y y le_rfl]
      rw [show y + 1 - y = 1 from by omega, List.range'_one]
      simp

theorem runs_flatten (l : List ℕ) :
    ((runs l).map (fun p => List.range' p.1 (p.2 + 1 - p.1))).flatten = l := by
  cases l with
  | nil => rfl
  | cons x xs =>
    unfold runs
    rw [runsGo_flatten xs x x le_rfl]
    rw [show x + 1 - x = 1 from by omega, List.range'_one]
    simp

theorem tokChars_ne_nil (p : ℕ × ℕ) : tokChars p ≠ [] := by
  unfold tokChars
  by_cases h : p.1 = p.2
  · simp only [if_pos h]; exact natToChars_ne_nil _
  · simp only [if_neg h]
    intro hcontra
    exact natToChars_ne_nil p.1 (List.append_eq_nil.mp hcontra).1

theorem tokChars_no_slash (p : ℕ × ℕ) : ∀ c ∈ tokChars p, c ≠ '/' := by
  unfold tokChars
  by_cases h : p.1 = p.2
  · simp only [if_pos h]
    exact fun c hc => (natToChars_ne_seps _ c hc).2
  · simp only [if_neg h]
    intro c hc
    rcases List.mem_append.1 hc with hc | hc
    · exact (natToChars_ne_seps _ c hc).2
    · rcases List.mem_cons.1 hc with hc | hc
      · rw [hc]; decide
      · exact (natToChars_ne_seps _ c hc).2

theorem joinSep_ne_nil (sep : Char) :
    ∀ (ts : List (List Char)), ts ≠ [] → (∀ t ∈ ts, t ≠ []) →
      joinSep sep ts ≠ [] := by
  intro ts
  induction ts with
  | nil => intro h _; exact absurd rfl h
  | cons t ts _ =>
    intro _ h
    cases ts with
    | nil => exact h t (List.mem_cons_self _ _)
    | cons t2 ts2 =>
      rw [show joinSep sep (t :: t2 :: ts2) = t ++ sep :: joinSep sep (t2 :: ts2) from rfl]
      intro hcontra
      exact h t (List.mem_cons_self _ _) (List.append_eq_nil.mp hcontra).1

theorem decompressChars_innerFormat (l : List ℕ) :
    decompressChars (innerFormatChars l) = l := by
  cases l with
  | nil => rfl
  | cons x xs =>
    have htoks_ne : (runs (x :: xs)).map tokChars ≠ [] := by
      simp only [ne_eq, List.map_eq_nil_iff]
      exact runsGo_ne_nil xs x x
    have htoks_each : ∀ t ∈ (runs (x :: xs)).map tokChars, t ≠ [] := by
      intro t ht
      obtain ⟨p, _, rfl⟩ := List.mem_map.1 ht
      exact tokChars_ne_nil p
    have hnoslash : ∀ t ∈ (runs (x :: xs)).map tokChars, ∀ c ∈ t, c ≠ '/' := by
      intro t ht
      obtain ⟨p, _, rfl⟩ := List.mem_map.1 ht
      exact tokChars_no_slash p
    have hne : innerFormatChars (x :: xs) ≠ [] :=
      joinSep_ne_nil '/' _ htoks_ne htoks_each
    unfold decompressChars
    rw [if_neg (by simpa [List.isEmpty_iff] using hne)]
    unfold innerFormatChars
    rw [splitChar_joinSep _ htoks_ne hnoslash]
    have hmap : ((runs (x :: xs)).map tokChars).map parseTok
        = (runs (x :: xs)).map (fun p => List.range' p.1 (p.2 + 1 - p.1)) := by
      rw [List.map_map]
      exact List.map_congr_left (fun p hp =>
        parseTok_tokChars_pair p (runsGo_bounds xs x x le_rfl p hp))
    rw [hmap]
    exact runs_flatten (x :: xs)

/-- C7: range compression is a bijection on finite sets of worker ids: the
decompression function inverts the rendering of `inner_format` on the
ascending sorted form of any finite set — empty, singleton, or any mix of
runs and gaps — recovering the sorted list and hence exactly the original
set. -/
theorem c7_range_compression_bijective (S : Finset ℕ) :
    decompressRanks (rankSetRender S) = S.sort (· ≤ ·) ∧
      (decompressRanks (rankSetRender S)).toFinset = S := by
  have h : decompressRanks (rankSetRender S) = S.sort (· ≤ ·) :=
    decompressChars_innerFormat (S.sort (· ≤ ·))
  exact ⟨h, by rw [h]; exact Finset.sort_toFinset _ S⟩

/-! ### Claim C8 -/

theorem ltChars_irrefl : ∀ l : List Char, ltChars l l = false := by
  intro l
  induction l with
  | nil => rfl
  | cons a as ih => simp [ltChars, lt_irrefl, ih]

theorem ltChars_asymm : ∀ {a b : List Char}, ltChars a b = true → ltChars b a = false := by
  intro a
  induction a with
  | nil =>
    intro b hab
    cases b with
    | nil => exact absurd hab (by simp [ltChars])
    | cons y ys => rfl
  | cons x xs ih =>
    intro b hab
    cases b with
    | nil => exact absurd hab (by simp [ltChars])
    | cons y ys =>
      by_cases h1 : x < y
      · simp [ltChars, lt_asymm h1, h1]
      · by_cases h2 : y < x
        · simp [ltChars, h1, h2] at hab
        · simp only [ltChars, if_neg h1, if_neg h2] at hab
          simp [ltChars, h1, h2, ih hab]

theorem ltChars_eq_of_not : ∀ {a b : List Char}, ltChars a b = false →
    ltChars b a = false → a = b := by
  intro a
  induction a with
  | nil =>
    intro b hab _
    cases b with
    | nil => rfl
    | cons y ys => exact absurd hab (by simp [ltChars])
  | cons x xs ih =>
    intro b hab hba
    cases b with
    | nil => exact absurd hba (by simp [ltChars])
    | cons y ys =>
      by_cases h1 : x < y
      · exact absurd hab (by simp [ltChars, h1])
      · by_cases h2 : y < x
        · exact absurd hba (by simp [ltChars, h2])
        · have hxy : x = y := le_antisymm (not_lt.mp h2) (not_lt.mp h1)
          subst hxy
          simp only [ltChars, if_neg h1, lt_irrefl, if_neg (lt_irrefl x)] at hab hba
          rw [ih hab hba]

theorem ltChars_trans : ∀ {a b c : List Char}, ltChars a b = true →
    ltChars b c = true → ltChars a c = true := by
  intro a
  induction a with
  | nil =>
    intro b c hab hbc
    cases c with
    | nil =>
      cases b with
      | nil => exact hab
      | cons y ys => exact absurd hbc (by simp [ltChars])
    | cons z zs => rfl
  | cons x xs ih =>
    intro b c hab hbc
    cases b with
    | nil => exact absurd hab (by simp [ltChars])
    | cons y ys =>
      cases c with
      | nil => exact absurd hbc (by simp [ltChars])
      | cons z zs =>
        by_cases hxy : x < y
        · by_cases hyz : y < z
          · simp [ltChars, lt_trans hxy hyz]
          · by_cases hzy : z < y
            · simp [ltChars, hyz, hzy] at hbc
            · have : y = z := le_antisymm (not_lt.mp hzy) (not_lt.mp hyz)
              subst this
              simp [ltChars, hxy]
        · by_cases hyx : y < x
          · simp [ltChars, hxy, hyx] at hab
          · have : x = y := le_antisymm (not_lt.mp hyx) (not_lt.mp hxy)
            subst this
            simp only [ltChars, if_neg hxy, if_neg hyx] at hab
            by_cases hxz : x < z
            · simp [ltChars, hxz]
            · by_cases hzx : z < x
              · simp [ltChars, hxz, hzx] at hbc
              · simp only [ltChars, if_neg hxz, if_neg hzx] at hbc ⊢
                exact ih hab hbc

theorem keyLt_irrefl (a : String) : keyLt a a = false := ltChars_irrefl a.data

theorem keyLt_asymm {a b : String} (h : keyLt a b = true) : keyLt b a = false :=
  ltChars_asymm h

theorem keyLt_trans {a b c : String} (h1 : keyLt a b = true)
    (h2 : keyLt b c = true) : keyLt a c = true := ltChars_trans h1 h2

theorem eq_of_not_keyLt {a b : String} (h1 : keyLt a b = false)
    (h2 : keyLt b a = false) : a = b := by
  have hd : a.data = b.data := ltChars_eq_of_not h1 h2
  cases a; cases b; exact congrArg String.mk hd

theorem keyLt_ne {a b : String} (h : keyLt a b = true) : a ≠ b := by
  intro he
  rw [he, keyLt_irrefl] at h
  exact Bool.false_ne_true h

theorem keyLt_trichotomy (a b : String) :
    (keyLt a b = true ∧ keyLt b a = false ∧ a ≠ b) ∨
      (a = b ∧ keyLt a b = false ∧ keyLt b a = false) ∨
      (keyLt b a = true ∧ keyLt a b = false ∧ b ≠ a) := by
  cases h1 : keyLt a b with
  | true => exact Or.inl ⟨rfl, keyLt_asymm h1, keyLt_ne h1⟩
  | false =>
    cases h2 : keyLt b a with
    | true => exact Or.inr (Or.inr ⟨rfl, rfl, keyLt_ne h2⟩)
    | false => exact Or.inr (Or.inl ⟨eq_of_not_keyLt h1 h2, rfl, rfl⟩)

theorem findChild_updateChild_self (k : String) (v : TrieNode) :
    ∀ l, findChild k (updateChild k v l) = some v := by
  intro l
  induction l with
  | nil => simp [updateChild, findChild]
  | cons kv rest ih =>
    obtain ⟨k0, v0⟩ := kv
    by_cases h1 : keyLt k k0
    · simp [updateChild, h1, findChild]
    · by_cases h2 : k = k0
      · subst h2
        simp [updateChild, h1, keyLt_irrefl, findChild]
      · have h2' : k0 ≠ k := fun h => h2 h.symm
        simp [updateChild, h1, h2, findChild, h2', ih]

theorem findChild_updateChild_ne {kq k : String} (h : kq ≠ k) (v : TrieNode) :
    ∀ l, findChild kq (updateChild k v l) = findChild kq l := by
  intro l
  have hk : k ≠ kq := fun he => h he.symm
  induction l with
  | nil => simp [updateChild, findChild, hk]
  | cons kv rest ih =>
    obtain ⟨k0, v0⟩ := kv
    by_cases h1 : keyLt k k0
    · simp [updateChild, h1, findChild, hk]
    · by_cases h2 : k = k0
      · subst h2
        simp [updateChild, h1, findChild, hk]
      · by_cases h3 : k0 = kq
        · subst h3
          simp [updateChild, h1, h2, findChild]
        · simp [updateChild, h1, h2, findChild, h3, ih]

theorem childOrNew_updateChild_self (k : String) (v : TrieNode)
    (l : List (String × TrieNode)) : childOrNew k (updateChild k v l) = v := by
  unfold childOrNew
  rw [findChild_updateChild_self]

theorem childOrNew_updateChild_ne {kq k : String} (h : kq ≠ k) (v : TrieNode)
    (l : List (String × TrieNode)) :
    childOrNew kq (updateChild k v l) = childOrNew kq l := by
  unfold childOrNew
  rw [findChild_updateChild_ne h]

theorem updateChild_overwrite (k : String) (v1 v2 : TrieNode) :
    ∀ l, updateChild k v1 (updateChild k v2 l) = updateChild k v1 l := by
  intro l
  induction l with
  | nil => simp [updateChild, keyLt_irrefl]
  | cons kv rest ih =>
    obtain ⟨k0, v0⟩ := kv
    by_cases h1 : keyLt k k0
    · simp [updateChild, h1, keyLt_irrefl]
    · by_cases h2 : k = k0
      · subst h2
        simp [updateChild, h1, keyLt_irrefl]
      · simp [updateChild, h1, h2, ih]

theorem updateChild_comm {k1 k2 : String} (hne : k1 ≠ k2) (v1 v2 : TrieNode) :
    ∀ l, updateChild k1 v1 (updateChild k2 v2 l)
      = updateChild k2 v2 (updateChild k1 v1 l) := by
  have hne' : k2 ≠ k1 := fun h => hne h.symm
  have h12 : (keyLt k1 k2 = true ∧ keyLt k2 k1 = false) ∨
      (keyLt k2 k1 = true ∧ keyLt k1 k2 = false) := by
    rcases keyLt_trichotomy k1 k2 with ⟨ha, hb, _⟩ | ⟨ha, _, _⟩ | ⟨ha, hb, _⟩
    · exact Or.inl ⟨ha, hb⟩
    · exact absurd ha hne
    · exact Or.inr ⟨ha, hb⟩
  intro l
  induction l with
  | nil =>
    rcases h12 with ⟨ha, hb⟩ | ⟨ha, hb⟩
    · simp [updateChild, ha, hb, hne, hne']
    · simp [updateChild, ha, hb, hne, hne']
  | cons kv rest ih =>
    obtain ⟨k0, v0⟩ := kv
    rcases keyLt_trichotomy k1 k0 with ⟨hA, hA', hAne⟩ | ⟨hA, hA', hA''⟩ | ⟨hA, hA', hAne⟩ <;>
      rcases keyLt_trichotomy k2 k0 with ⟨hB, hB', hBne⟩ | ⟨hB, hB', hB''⟩ | ⟨hB, hB', hBne⟩
    · -- k1 < k0, k2 < k0
      rcases h12 with ⟨ha, hb⟩ | ⟨ha, hb⟩
      · simp [updateChild, hA, hB, ha, hb, hne, hne']
      · simp [updateChild, hA, hB, ha, hb, hne, hne']
    · -- k1 < k0, k2 = k0
      subst hB
      simp [updateChild, hA, keyLt_irrefl, keyLt_asymm hA, hne, hne']
    · -- k1 < k0, k0 < k2
      have h1lt2 : keyLt k1 k2 = true := keyLt_trans hA hB
      simp [updateChild, hA, hB, hB', hBne, Ne.symm hBne, keyLt_asymm h1lt2, hne, hne']
    · -- k1 = k0, k2 < k0
      subst hA
      simp [updateChild, hB, keyLt_irrefl, keyLt_asymm hB, hne, hne']
    · -- k1 = k0 = k2: contradiction
      exact absurd (hA.trans hB.symm) hne
    · -- k1 = k0, k0 < k2
      subst hA
      simp [updateChild, hB, hB', hBne, Ne.symm hBne, keyLt_irrefl, hne, hne']
    · -- k0 < k1, k2 < k0
      have h2lt1 : keyLt k2 k1 = true := keyLt_trans hB hA
      simp [updateChild, hA, hA', hAne, Ne.symm hAne, hB, keyLt_asymm h2lt1, hne, hne']
    · -- k0 < k1, k2 = k0
      subst hB
      simp [updateChild, hA, hA', hAne, Ne.symm hAne, keyLt_irrefl, hne, hne']
    · -- k0 < k1, k0 < k2
      simp [updateChild, hA, hA', hAne, Ne.symm hAne, hB, hB', hBne, Ne.symm hBne, ih]

theorem insertRank_comm (r1 r2 : ℕ) :
    ∀ l, insertRank r1 (insertRank r2 l) = insertRank r2 (insertRank r1 l) := by
  by_cases h12 : r1 = r2
  · subst h12; intro l; rfl
  · intro l
    induction l with
    | nil =>
      rcases Nat.lt_trichotomy r1 r2 with h | h | h
      · simp [insertRank, h, Nat.lt_asymm h, h12, Ne.symm h12]
      · exact absurd h h12
      · simp [insertRank, h, Nat.lt_asymm h, h12, Ne.symm h12]
    | cons x xs ih =>
      rcases Nat.lt_trichotomy r1 x with hA | hA | hA <;>
        rcases Nat.lt_trichotomy r2 x with hB | hB | hB
      · -- r1 < x, r2 < x
        rcases Nat.lt_trichotomy r1 r2 with h | h | h
        · simp [insertRank, hA, hB, h, Nat.lt_asymm h, h12, Ne.symm h12]
        · exact absurd h h12
        · simp [insertRank, hA, hB, h, Nat.lt_asymm h, h12, Ne.symm h12]
      · -- r1 < x, r2 = x
        subst hB
        simp [insertRank, hA, Nat.lt_irrefl, Nat.lt_asymm hA, h12, Ne.symm h12]
      · -- r1 < x, x < r2
        have h1lt2 : r1 < r2 := Nat.lt_trans hA hB
        simp [insertRank, hA, hB, Nat.lt_asymm hB, (Nat.ne_of_lt hB).symm,
          Nat.lt_asymm h1lt2, h12, Ne.symm h12]
      · -- r1 = x, r2 < x
        subst hA
        simp [insertRank, hB, Nat.lt_irrefl, Nat.lt_asymm hB, h12, Ne.symm h12]
      · exact absurd (hA.trans hB.symm) h12
      · -- r1 = x, x < r2
        subst hA
        simp [insertRank, hB, Nat.lt_irrefl, Nat.lt_asymm hB, (Nat.ne_of_lt hB).symm,
          h12, Ne.symm h12]
      · -- x < r1, r2 < x
        have h2lt1 : r2 < r1 := Nat.lt_trans hB hA
        simp [insertRank, hA, hB, Nat.lt_asymm hA, (Nat.ne_of_lt hA).symm,
          Nat.lt_asymm h2lt1, h12, Ne.symm h12]
      · -- x < r1, r2 = x
        subst hB
        simp [insertRank, hA, Nat.lt_irrefl, Nat.lt_asymm hA, (Nat.ne_of_lt hA).symm,
          h12, Ne.symm h12]
      · -- x < r1, x < r2
        simp [insertRank, hA, hB, Nat.lt_asymm hA, Nat.lt_asymm hB,
          (Nat.ne_of_lt hA).symm, (Nat.ne_of_lt hB).symm, ih]

theorem addRank_comm (r1 r2 : ℕ) (n : TrieNode) :
    addRank r1 (addRank r2 n) = addRank r2 (addRank r1 n) := by
  cases n with
  | mk children e ranks => simp [addRank, insertRank_comm]

/-- An insert whose walk stops immediately (empty key sequence or marked
first key) only marks the node and records the rank. -/
theorem insertTrie_stop {ks : List String} (r : ℕ) (n : TrieNode)
    (h : ks = [] ∨ ∃ k ks', ks = k :: ks' ∧ containsMarker k = true) :
    insertTrie ks r n = .mk n.children true (insertRank r n.ranks) := by
  rcases h with h | ⟨k, ks', hk, hm⟩
  · rw [h]; rfl
  · rw [hk]; simp [insertTrie, hm]

theorem insertTrie_descend {f : String} (hm : containsMarker f = false)
    (rest : List String) (r : ℕ) (n : TrieNode) :
    insertTrie (f :: rest) r n =
      .mk (updateChild f
          (insertTrie rest r (addRank r (childOrNew f n.children))) n.children)
        n.is_end_of_stack n.ranks := by
  simp [insertTrie, hm]

theorem insertTrie_addRank_swap (ks : List String) (rq r : ℕ) (n : TrieNode) :
    insertTrie ks rq (addRank r n) = addRank r (insertTrie ks rq n) := by
  cases ks with
  | nil => simp [insertTrie, addRank, insertRank_comm]
  | cons f rest =>
    cases hm : containsMarker f with
    | true =>
      rw [insertTrie_stop rq _ (Or.inr ⟨f, rest, rfl, hm⟩),
        insertTrie_stop rq _ (Or.inr ⟨f, rest, rfl, hm⟩)]
      simp [addRank, insertRank_comm]
    | false =>
      rw [insertTrie_descend hm, insertTrie_descend hm]
      simp [addRank]

theorem insertTrie_comm : ∀ (ks1 : List String) (r1 : ℕ) (ks2 : List String)
    (r2 : ℕ) (n : TrieNode),
    insertTrie ks1 r1 (insertTrie ks2 r2 n)
      = insertTrie ks2 r2 (insertTrie ks1 r1 n) := by
  have stop_comm : ∀ (ks1 : List String) (r1 : ℕ) (ks2 : List String) (r2 : ℕ)
      (n : TrieNode),
      (ks2 = [] ∨ ∃ k ks', ks2 = k :: ks' ∧ containsMarker k = true) →
      insertTrie ks1 r1 (insertTrie ks2 r2 n)
        = insertTrie ks2 r2 (insertTrie ks1 r1 n) := by
    intro ks1 r1 ks2 r2 n h2
    rw [insertTrie_stop r2 n h2]
    cases ks1 with
    | nil =>
      rw [insertTrie_stop r2 _ h2]
      simp [insertTrie, insertRank_comm]
    | cons f rest =>
      cases hm : containsMarker f with
      | true =>
        rw [insertTrie_stop r1 _ (Or.inr ⟨f, rest, rfl, hm⟩),
          insertTrie_stop r1 _ (Or.inr ⟨f, rest, rfl, hm⟩),
          insertTrie_stop r2 _ h2]
        simp [insertRank_comm]
      | false =>
        rw [insertTrie_descend hm, insertTrie_descend hm,
          insertTrie_stop r2 _ h2]
        rfl
  intro ks1
  induction ks1 with
  | nil =>
    intro r1 ks2 r2 n
    exact (stop_comm ks2 r2 [] r1 n (Or.inl rfl)).symm
  | cons f1 rest1 ih =>
    intro r1 ks2 r2 n
    cases hm1 : containsMarker f1 with
    | true =>
      exact (stop_comm ks2 r2 (f1 :: rest1) r1 n
        (Or.inr ⟨f1, rest1, rfl, hm1⟩)).symm
    | false =>
      cases ks2 with
      | nil => exact stop_comm (f1 :: rest1) r1 [] r2 n (Or.inl rfl)
      | cons f2 rest2 =>
        cases hm2 : containsMarker f2 with
        | true =>
          exact stop_comm (f1 :: rest1) r1 (f2 :: rest2) r2 n
            (Or.inr ⟨f2, rest2, rfl, hm2⟩)
        | false =>
          by_cases hf : f1 = f2
          · subst hf
            rw [insertTrie_descend hm1, insertTrie_descend hm1,
              insertTrie_descend hm1, insertTrie_descend hm1]
            simp only [children_mk, is_end_of_stack_mk, ranks_mk]
            rw [childOrNew_updateChild_self, childOrNew_updateChild_self,
              updateChild_overwrite, updateChild_overwrite]
            have e1 : insertTrie rest1 r1 (addRank r1
                  (insertTrie rest2 r2 (addRank r2 (childOrNew f1 n.children))))
                = addRank r1 (addRank r2
                  (insertTrie rest1 r1 (insertTrie rest2 r2 (childOrNew f1 n.children)))) := by
              rw [insertTrie_addRank_swap rest2 r2 r2,
                insertTrie_addRank_swap rest1 r1 r1,
                insertTrie_addRank_swap rest1 r1 r2]
            have e2 : insertTrie rest2 r2 (addRank r2
                  (insertTrie rest1 r1 (addRank r1 (childOrNew f1 n.children))))
                = addRank r2 (addRank r1
                  (insertTrie rest2 r2 (insertTrie rest1 r1 (childOrNew f1 n.children)))) := by
              rw [insertTrie_addRank_swap rest1 r1 r1,
                insertTrie_addRank_swap rest2 r2 r2,
                insertTrie_addRank_swap rest2 r2 r1]
            rw [e1, e2, ih r1 rest2 r2, addRank_comm]
          · have hf' : f2 ≠ f1 := fun h => hf h.symm
            rw [insertTrie_descend hm2, insertTrie_descend hm1,
              insertTrie_descend hm1, insertTrie_descend hm2]
            simp only [children_mk, is_end_of_stack_mk, ranks_mk]
            rw [childOrNew_updateChild_ne hf, childOrNew_updateChild_ne hf',
              updateChild_comm hf']

theorem buildRoot_perm {l1 l2 : List (List String × ℕ)} (hp : l1.Perm l2) :
    buildRoot l1 = buildRoot l2 := by
  unfold buildRoot
  suffices h : ∀ t : TrieNode,
      l1.foldl (fun t p => insertTrie p.1 p.2 t) t
        = l2.foldl (fun t p => insertTrie p.1 p.2 t) t from h TrieNode.new
  induction hp with
  | nil => intro t; rfl
  | cons x _ ih => intro t; simp only [List.foldl_cons]; exact ih _
  | swap x y l =>
    intro t
    simp only [List.foldl_cons]
    rw [insertTrie_comm]
  | trans _ _ ih1 ih2 => intro t; exact (ih1 t).trans (ih2 t)

/-- C8: the trie built by inserting a batch of (key-sequence, worker-id)
pairs is invariant under any permutation of the insertion order — same
canonical children map at every node (hence same shape), same rank sets,
same stack-end flags. -/
theorem c8_insertion_order_irrelevant (l1 l2 : List (List String × ℕ))
    (hp : l1.Perm l2) : buildRoot l1 = buildRoot l2 :=
  buildRoot_perm hp

/-- C8 witness: swapping two concrete inserts yields the identical trie. -/
theorem c8_witness :
    (([(["a (a.c:1)"], 0), (["b (b.c:1)"], 1)] : List (List String × ℕ)).Perm
        [(["b (b.c:1)"], 1), (["a (a.c:1)"], 0)]) ∧
      buildRoot [(["a (a.c:1)"], 0), (["b (b.c:1)"], 1)]
        = buildRoot [(["b (b.c:1)"], 1), (["a (a.c:1)"], 0)] :=
  ⟨List.Perm.swap _ _ _,
    c8_insertion_order_irrelevant _ _ (List.Perm.swap _ _ _)⟩

/-! ### Traversal fuel adequacy

The fuel passed to `travList` by `mergeResult` is shown never to cut the
traversal short: the output is the same for every fuel at least the depth
of the trie, and the trie built by the merge is strictly shallower than
`mergeFuel`. -/

theorem travList_cons (allR : List ℕ) (fuel : ℕ) (f : String) (c : TrieNode)
    (rest : List (String × TrieNode)) (path : List String) :
    travList allR (fuel + 1) ((f, c) :: rest) path =
      (if c.is_end_of_stack then
          [([String.intercalate ";" path, f], formatRankStr allR c.ranks)]
        else [])
        ++ travList allR fuel c.children (path ++ [f ++ formatRankStr allR c.ranks])
        ++ travList allR (fuel + 1) rest path := rfl

theorem depthC_nil : depthC [] = 0 := by simp [depthC]

theorem depthC_cons (f : String) (c : TrieNode) (rest : List (String × TrieNode)) :
    depthC ((f, c) :: rest) = max (1 + depthC c.children) (depthC rest) := by
  cases c with
  | mk cc ce cr => simp [depthC]

theorem depthC_mem_bound : ∀ (l : List (String × TrieNode)) (k : String)
    (c : TrieNode), (k, c) ∈ l → 1 + depthC c.children ≤ depthC l := by
  intro l
  induction l with
  | nil => intro k c h; simp at h
  | cons p rest ih =>
    obtain ⟨k0, c0⟩ := p
    intro k c h
    rw [depthC_cons]
    rcases List.mem_cons.1 h with h | h
    · have hc : c = c0 := (Prod.mk.injEq _ _ _ _ ▸ h).2
      rw [hc]
      exact le_max_left _ _
    · exact (ih k c h).trans (le_max_right _ _)

theorem depthC_updateChild (f : String) (v : TrieNode) :
    ∀ l, depthC (updateChild f v l) ≤ max (depthC l) (1 + depthC v.children) := by
  intro l
  induction l with
  | nil =>
    rw [show updateChild f v [] = [(f, v)] from rfl, depthC_cons, depthC_nil]
    omega
  | cons p rest ih =>
    obtain ⟨k0, v0⟩ := p
    by_cases h1 : keyLt f k0
    · rw [show updateChild f v ((k0, v0) :: rest) = (f, v) :: (k0, v0) :: rest from by
        simp [updateChild, h1]]
      rw [depthC_cons, depthC_cons]
      omega
    · by_cases h2 : f = k0
      · rw [show updateChild f v ((k0, v0) :: rest) = (f, v) :: rest from by
          simp [updateChild, h1, h2, keyLt_irrefl]]
        rw [depthC_cons, depthC_cons]
        omega
      · rw [show updateChild f v ((k0, v0) :: rest) = (k0, v0) :: updateChild f v rest from by
          simp [updateChild, h1, h2]]
        rw [depthC_cons, depthC_cons]
        have := ih
        omega

theorem depthC_insertTrie : ∀ (ks : List String) (r : ℕ) (n : TrieNode),
    depthC (insertTrie ks r n).children ≤ max (depthC n.children) ks.length := by
  intro ks
  induction ks with
  | nil =>
    intro r n
    rw [insertTrie_stop r n (Or.inl rfl), children_mk]
    omega
  | cons f rest ih =>
    intro r n
    cases hm : containsMarker f with
    | true =>
      rw [insertTrie_stop r n (Or.inr ⟨f, rest, rfl, hm⟩), children_mk]
      omega
    | false =>
      rw [insertTrie_descend hm, children_mk]
      have h1 := depthC_updateChild f
        (insertTrie rest r (addRank r (childOrNew f n.children))) n.children
      have h2 := ih r (addRank r (childOrNew f n.children))
      rw [addRank_children] at h2
      rcases childOrNew_cases f n.children with hnew | hmem
      · rw [hnew] at h1 h2 ⊢
        rw [show TrieNode.new.children = ([] : List (String × TrieNode)) from rfl,
          depthC_nil] at h2
        simp only [List.length_cons]
        omega
      · have hb := depthC_mem_bound n.children f _ hmem
        simp only [List.length_cons]
        omega

theorem foldr_max_le_sum : ∀ l : List ℕ, l.foldr max 0 ≤ l.sum := by
  intro l
  induction l with
  | nil => simp
  | cons x xs ih => simp only [List.foldr_cons, List.sum_cons]; omega

theorem depthC_mergeFold : ∀ (pairs : List (String × ℕ)) (t : TrieNode),
    depthC ((pairs.foldl (fun t p => insertTrie (splitStr ';' p.1) p.2 t) t).children)
      ≤ max (depthC t.children)
          ((pairs.map (fun p => (splitStr ';' p.1).length)).foldr max 0) := by
  intro pairs
  induction pairs with
  | nil => intro t; simp
  | cons p ps ih =>
    intro t
    simp only [List.foldl_cons, List.map_cons, List.foldr_cons]
    have h1 := ih (insertTrie (splitStr ';' p.1) p.2 t)
    have h2 := depthC_insertTrie (splitStr ';' p.1) p.2 t
    omega

theorem sum_splitLens_zip_le (prepare : List String) :
    ∀ rank_list : List ℕ,
      ((prepare.zip rank_list).map (fun p => (splitStr ';' p.1).length)).sum
        ≤ (prepare.map (fun s => (splitStr ';' s).length)).sum := by
  induction prepare with
  | nil => intro rank_list; simp
  | cons x xs ih =>
    intro rank_list
    cases rank_list with
    | nil => simp
    | cons y ys =>
      simp only [List.zip_cons_cons, List.map_cons, List.sum_cons]
      have := ih ys
      omega

theorem travList_congr (allR : List ℕ) : ∀ (fuel1 fuel2 : ℕ)
    (children : List (String × TrieNode)) (path : List String),
    depthC children ≤ fuel1 → depthC children ≤ fuel2 →
    travList allR fuel1 children path = travList allR fuel2 children path := by
  intro fuel1
  induction fuel1 with
  | zero =>
    intro fuel2 children path h1 h2
    cases children with
    | nil => cases fuel2 <;> rfl
    | cons p rest =>
      obtain ⟨k, c⟩ := p
      rw [depthC_cons] at h1
      omega
  | succ f1 ih =>
    intro fuel2 children path h1 h2
    cases fuel2 with
    | zero =>
      cases children with
      | nil => rfl
      | cons p rest =>
        obtain ⟨k, c⟩ := p
        rw [depthC_cons] at h2
        omega
    | succ f2 =>
      revert h1 h2
      induction children generalizing path with
      | nil => intro _ _; rfl
      | cons p rest ihc =>
        obtain ⟨k, c⟩ := p
        intro h1 h2
        rw [depthC_cons] at h1 h2
        rw [travList_cons, travList_cons]
        rw [ih f2 c.children (path ++ [k ++ formatRankStr allR c.ranks])
          (by omega) (by omega)]
        rw [ihc path (by omega) (by omega)]

theorem depthC_mergeTrieRoot_lt_mergeFuel (frames : List (List Frame))
    (rank_list : List ℕ) :
    depthC (mergeTrieRoot frames rank_list).children < mergeFuel frames := by
  unfold mergeTrieRoot mergeFuel
  have h1 := depthC_mergeFold ((prepareStacks frames).zip rank_list) TrieNode.new
  rw [show TrieNode.new.children = ([] : List (String × TrieNode)) from rfl,
    depthC_nil] at h1
  have h2 := foldr_max_le_sum
    (((prepareStacks frames).zip rank_list).map (fun p => (splitStr ';' p.1).length))
  have h3 := sum_splitLens_zip_le (prepareStacks frames) rank_list
  omega

/-- The traversal output `mergeResult` computes is independent of the fuel
choice: any bound at least `mergeFuel` (which itself exceeds the trie's
depth) yields the identical line list, so the fuel never truncates the
embedded recursion. -/
theorem travList_mergeFuel_stable (frames : List (List Frame))
    (rank_list : List ℕ) (fuel : ℕ) (h : mergeFuel frames ≤ fuel) :
    travList (sortDedup rank_list) fuel (mergeTrieRoot frames rank_list).children []
      = travList (sortDedup rank_list) (mergeFuel frames)
          (mergeTrieRoot frames rank_list).children [] := by
  have hd := depthC_mergeTrieRoot_lt_mergeFuel frames rank_list
  exact travList_congr _ _ _ _ _ (by omega) (by omega)

end Flame
